import Mathlib

/-!
Verification of the `udb` shopping-cart demo against its specification.

The program consists of:
  * `src/cores/shopping-release/list.h` — an intrusive doubly-linked list
    (BSD-queue style macros: `LIST_INSERT_HEAD`, `LIST_INSERT_AFTER`,
    `LIST_INSERT_TAIL`, `LIST_REMOVE`, `LIST_FOREACH`);
  * `src/cores/shopping-debug/item.c` — a shopping cart built on that list
    (`add_to_cart`, `remove_from_cart`, `get_cost`, `get_name`), with a
    global head pointer `shopping_cart`.

Two embeddings are developed:

1. A *cart-level* embedding where the chain of `struct item` nodes hanging
   off a (valid) list head is represented as a `List item`, and the loops of
   `add_to_cart` / `remove_from_cart` become structural recursion over that
   list.  The not-found path of `remove_from_cart` executes
   `LIST_REMOVE(item, next)` with `item == NULL` (the `LIST_FOREACH` cursor
   after loop exhaustion), a null dereference; it is modelled as the
   `segfault` outcome.

2. A *heap-level* embedding of `list.h` itself: a state of a head pointer
   slot plus a heap of nodes, each node holding `le_next : Option addr` and
   `le_prev`, the latter the *address of the previous next-pointer slot*
   (either the head's `lh_first` slot or some node's `le_next` slot),
   exactly as in the C.  The macros are translated write-by-write, and the
   loops of `LIST_INSERT_TAIL` / `LIST_FOREACH` get an explicit fuel.

In `item.c` the global `static LIST_HEAD(shopping_head, item) *shopping_cart;`
is a zero-initialised *pointer to* a head structure that is never assigned;
this is modelled by `shopping_cart : Option (List item) := none`, where
`none` is the null pointer and `some cart` would be a pointer to a head
whose chain carries `cart`.
-/

/-- `struct item { long id; int count; LIST_ENTRY(item) next; }` — the data
fields.  `id` (a C `long`) and `count` (a C `int`) are modelled as
mathematical integers; neither field is subjected to arithmetic that
overflows in any scenario the specification discusses.  The intrusive link
fields live in the heap-level model below, not here. -/
structure item where
  id : Int
  count : Int
deriving DecidableEq, Repr

/-- The scan of `add_to_cart`'s `LIST_FOREACH` loop (item.c lines 21-26):
walk the chain; on the first node with matching `id` perform
`item->count += 1` and return (`some` of the updated chain).  `none` means
the loop ran off the end of the list without a match. -/
def add_scan (id : Int) : List item → Option (List item)
  | [] => none
  | it :: rest =>
    if it.id = id then
      some ({ it with count := it.count + 1 } :: rest)
    else
      (add_scan id rest).map (it :: ·)

/-- `add_to_cart` (item.c lines 17-32) given a valid list head carrying
`cart`: scan for `id`; if found, increment that item's count in place;
otherwise `malloc` a fresh `item {id, count := 1}` and `LIST_INSERT_TAIL`
it.  At this level of abstraction tail insertion is appending to the list
(justified independently by the heap-level theorem for `LIST_INSERT_TAIL`
below). -/
def add_to_cart (id : Int) (cart : List item) : List item :=
  match add_scan id cart with
  | some cart' => cart'
  | none => cart ++ [⟨id, 1⟩]

/-- The scan of `remove_from_cart`'s `LIST_FOREACH` loop (item.c lines
39-45): on the first node with matching `id`, capture `item->count`,
`LIST_REMOVE` the node and `free` it, returning the captured count and the
remaining chain.  `none` means the loop exhausted the list. -/
def remove_scan (id : Int) : List item → Option (Int × List item)
  | [] => none
  | it :: rest =>
    if it.id = id then
      some (it.count, rest)
    else
      (remove_scan id rest).map (fun p => (p.1, it :: p.2))

/-- Outcome of `remove_from_cart`. -/
inductive removeResult where
  /-- The item was found: its count was captured, the node unlinked and
  freed, and the captured count returned; the remaining chain is recorded. -/
  | removed : Int → List item → removeResult
  /-- The item was not found: control falls through the loop to
  `LIST_REMOVE(item, next)` where the cursor `item` is `NULL` (the
  `LIST_FOREACH` exit condition), so `item->next.le_next` dereferences a
  null pointer.  The source comments this path with `// this will core`. -/
  | segfault : removeResult
deriving DecidableEq, Repr

/-- `remove_from_cart` (item.c lines 34-54) given a valid list head carrying
`cart`. -/
def remove_from_cart (id : Int) (cart : List item) : removeResult :=
  match remove_scan id cart with
  | some (c, cart') => .removed c cart'
  | none => .segfault

/-- Outcome of a cart operation that first goes through the global head
pointer. -/
inductive cOutcome (α : Type) where
  | ok : α → cOutcome α
  | segfault : cOutcome α
deriving DecidableEq

/-- The global `static LIST_HEAD(shopping_head, item) *shopping_cart;`
(item.c line 15).  It is a static pointer, hence zero-initialised to
`NULL`, and no statement of `item.c` ever assigns it, so its value is
`none` (the null pointer) for the whole run of the program. -/
def shopping_cart : Option (List item) := none

/-- `add_to_cart` as called through the global head pointer: the very first
action, `LIST_FOREACH(item, shopping_cart, next)`, evaluates
`shopping_cart->lh_first`, which dereferences `shopping_cart`; if the
pointer is null this is a segfault before any list logic runs. -/
def add_to_cart_global (head : Option (List item)) (id : Int) :
    cOutcome (List item) :=
  match head with
  | none => .segfault
  | some cart => .ok (add_to_cart id cart)

/-- `remove_from_cart` as called through the global head pointer; as with
`add_to_cart_global`, the initial `LIST_FOREACH` dereferences the head
pointer itself. -/
def remove_from_cart_global (head : Option (List item)) (id : Int) :
    cOutcome removeResult :=
  match head with
  | none => .segfault
  | some cart => .ok (remove_from_cart id cart)

/-- `get_cost` (item.c lines 56-65). -/
def get_cost (id : Int) : Int :=
  if id = 1 then 10
  else if id = 2 then 12
  else 0

/-- `get_name` (item.c lines 67-76). -/
def get_name (id : Int) : String :=
  if id = 1 then "apple"
  else if id = 2 then "banana"
  else "bad id"

section CartLemmas

/-- If no element of the chain matches, the `add` scan fails. -/
theorem add_scan_eq_none_of_not_mem (id : Int) :
    ∀ cart : List item, (∀ it ∈ cart, it.id ≠ id) → add_scan id cart = none := by
  intro cart h
  induction cart with
  | nil => rfl
  | cons it rest ih =>
    have hid : it.id ≠ id := h it (List.mem_cons_self it rest)
    simp only [add_scan, if_neg hid]
    rw [ih fun j hj => h j (List.mem_cons_of_mem it hj)]
    rfl

/-- If the prefix has no match and `it` matches, the `add` scan increments
`it` in place. -/
theorem add_scan_found (id : Int) :
    ∀ l₁ : List item, ∀ it : item, ∀ l₂ : List item,
      (∀ j ∈ l₁, j.id ≠ id) → it.id = id →
      add_scan id (l₁ ++ it :: l₂) =
        some (l₁ ++ { it with count := it.count + 1 } :: l₂) := by
  intro l₁
  induction l₁ with
  | nil =>
    intro it l₂ _ hit
    simp [add_scan, if_pos hit]
  | cons j rest ih =>
    intro it l₂ hpre hit
    have hj : j.id ≠ id := hpre j (List.mem_cons_self j rest)
    have hrest : ∀ k ∈ rest, k.id ≠ id := fun k hk => hpre k (List.mem_cons_of_mem j hk)
    simp only [List.cons_append, add_scan, if_neg hj, List.append_eq,
      ih it l₂ hrest hit, Option.map_some']

/-- If no element of the chain matches, the `remove` scan fails. -/
theorem remove_scan_eq_none_of_not_mem (id : Int) :
    ∀ cart : List item, (∀ it ∈ cart, it.id ≠ id) → remove_scan id cart = none := by
  intro cart h
  induction cart with
  | nil => rfl
  | cons it rest ih =>
    have hid : it.id ≠ id := h it (List.mem_cons_self it rest)
    simp only [remove_scan, if_neg hid]
    rw [ih fun j hj => h j (List.mem_cons_of_mem it hj)]
    rfl

/-- If the prefix has no match and `it` matches, the `remove` scan captures
`it.count` and drops `it` from the chain. -/
theorem remove_scan_found (id : Int) :
    ∀ l₁ : List item, ∀ it : item, ∀ l₂ : List item,
      (∀ j ∈ l₁, j.id ≠ id) → it.id = id →
      remove_scan id (l₁ ++ it :: l₂) = some (it.count, l₁ ++ l₂) := by
  intro l₁
  induction l₁ with
  | nil =>
    intro it l₂ _ hit
    simp [remove_scan, if_pos hit]
  | cons j rest ih =>
    intro it l₂ hpre hit
    have hj : j.id ≠ id := hpre j (List.mem_cons_self j rest)
    have hrest : ∀ k ∈ rest, k.id ≠ id := fun k hk => hpre k (List.mem_cons_of_mem j hk)
    simp only [List.cons_append, remove_scan, if_neg hj, List.append_eq,
      ih it l₂ hrest hit, Option.map_some']

/-- `add_to_cart` on a cart without the id appends a fresh item at the tail. -/
theorem add_to_cart_not_mem (id : Int) (cart : List item)
    (h : ∀ it ∈ cart, it.id ≠ id) :
    add_to_cart id cart = cart ++ [⟨id, 1⟩] := by
  simp [add_to_cart, add_scan_eq_none_of_not_mem id cart h]

/-- `add_to_cart` on a cart whose first match is `it` increments `it`'s
count in place, leaving the rest of the cart untouched. -/
theorem add_to_cart_found (id : Int) (l₁ : List item) (it : item) (l₂ : List item)
    (hpre : ∀ j ∈ l₁, j.id ≠ id) (hit : it.id = id) :
    add_to_cart id (l₁ ++ it :: l₂) =
      l₁ ++ { it with count := it.count + 1 } :: l₂ := by
  simp [add_to_cart, add_scan_found id l₁ it l₂ hpre hit]

end CartLemmas

/-- Iterating `add_to_cart id` on a cart free of `id` appends one item with
that id whose count equals the number of calls. -/
theorem add_to_cart_iterate (id : Int) (cart : List item)
    (hfresh : ∀ it ∈ cart, it.id ≠ id) :
    ∀ n : Nat, (add_to_cart id)^[n + 1] cart = cart ++ [⟨id, (n : Int) + 1⟩] := by
  intro n
  induction n with
  | zero =>
    simpa using add_to_cart_not_mem id cart hfresh
  | succ m ih =>
    rw [Function.iterate_succ_apply', ih]
    have h := add_to_cart_found id cart ⟨id, (m : Int) + 1⟩ [] hfresh rfl
    simpa [add_assoc] using h

/-- The final, remaining text of the C6/C1 loop fall-through: on any cart
whose items all miss the id, `remove_from_cart` reaches the unconditional
`LIST_REMOVE(item, next)` with the null cursor. -/
theorem remove_from_cart_not_mem (id : Int) (cart : List item)
    (h : ∀ it ∈ cart, it.id ≠ id) :
    remove_from_cart id cart = .segfault := by
  simp [remove_from_cart, remove_scan_eq_none_of_not_mem id cart h]

/-- **C1.** The claim says `remove_from_cart(x)` with no matching item in
the cart — in particular on the empty cart — reports `NotFound` as a
recoverable error and never crashes.  The code does the opposite: after the
`LIST_FOREACH` loop exhausts the list the cursor `item` is `NULL`, and the
code unconditionally executes `LIST_REMOVE(item, next)` and `free(item)`
on it (item.c lines 49-51, commented `// this will core`), a null-pointer
dereference.  Evaluated here at the concrete failing input id = 7 on the
empty cart: the outcome is a segfault, not a `NotFound` result. -/
theorem remove_from_cart_empty_segfault :
    remove_from_cart 7 [] = .segfault := rfl

/-- **C2.** `add_to_cart id`: if no item of the cart matches `id`, a fresh
`item {id, count := 1}` is inserted at the tail (first conjunct); if the
cart splits as `l₁ ++ it :: l₂` with `it` the first match, `it`'s count is
incremented in place and nothing else changes (second conjunct), so
distinct ids stay in first-added order. -/
theorem add_to_cart_spec (id : Int) :
    (∀ cart : List item, (∀ it ∈ cart, it.id ≠ id) →
      add_to_cart id cart = cart ++ [⟨id, 1⟩]) ∧
    (∀ l₁ : List item, ∀ it : item, ∀ l₂ : List item,
      (∀ j ∈ l₁, j.id ≠ id) → it.id = id →
      add_to_cart id (l₁ ++ it :: l₂) =
        l₁ ++ { it with count := it.count + 1 } :: l₂) :=
  ⟨fun cart h => add_to_cart_not_mem id cart h,
   fun l₁ it l₂ hpre hit => add_to_cart_found id l₁ it l₂ hpre hit⟩

/-- Witness for `add_to_cart_spec`: both branches at concrete carts. -/
theorem add_to_cart_spec_witness :
    add_to_cart 3 [({ id := 1, count := 1 } : item)] =
      [{ id := 1, count := 1 }, { id := 3, count := 1 }] ∧
    add_to_cart 2 [({ id := 1, count := 1 } : item), { id := 2, count := 3 }] =
      [{ id := 1, count := 1 }, { id := 2, count := 4 }] :=
  ⟨(add_to_cart_spec 3).1 [{ id := 1, count := 1 }] (by decide),
   (add_to_cart_spec 2).2 [{ id := 1, count := 1 }] { id := 2, count := 3 } []
      (by decide) (by decide)⟩

/-- **C3.** If an item with id `x` is in the cart (`it`, the first match),
`remove_from_cart x` captures its count, unlinks exactly that item, and
returns the captured count as the success result. -/
theorem remove_from_cart_found_spec (id : Int) (l₁ : List item) (it : item)
    (l₂ : List item) (hpre : ∀ j ∈ l₁, j.id ≠ id) (hit : it.id = id) :
    remove_from_cart id (l₁ ++ it :: l₂) = .removed it.count (l₁ ++ l₂) := by
  simp [remove_from_cart, remove_scan_found id l₁ it l₂ hpre hit]

/-- Witness for `remove_from_cart_found_spec` at a concrete cart. -/
theorem remove_from_cart_found_spec_witness :
    remove_from_cart 2 [({ id := 1, count := 1 } : item), { id := 2, count := 5 },
        { id := 3, count := 1 }] =
      .removed 5 [{ id := 1, count := 1 }, { id := 3, count := 1 }] :=
  remove_from_cart_found_spec 2 [{ id := 1, count := 1 }] { id := 2, count := 5 }
    [{ id := 3, count := 1 }] (by decide) (by decide)

/-- **C4.** Starting from a cart not containing `id`, after `n ≥ 1` calls
of `add_to_cart id` the cart contains exactly one item with that id, and
its count equals `n`. -/
theorem add_to_cart_count_eq_calls (id : Int) (cart : List item) (n : Nat)
    (hn : 1 ≤ n) (hfresh : ∀ it ∈ cart, it.id ≠ id) :
    ((add_to_cart id)^[n] cart).filter (fun it => it.id == id) =
      [⟨id, (n : Int)⟩] := by
  obtain ⟨m, rfl⟩ := Nat.exists_eq_add_of_le hn
  rw [Nat.add_comm 1 m, add_to_cart_iterate id cart hfresh m]
  rw [List.filter_append]
  have h₁ : cart.filter (fun it => it.id == id) = [] := by
    rw [List.filter_eq_nil_iff]
    intro a ha
    simpa using hfresh a ha
  have h₂ : ((m + 1 : Nat) : Int) = (m : Int) + 1 := by push_cast; ring
  rw [h₁, h₂]
  simp [List.filter]

/-- Witness for `add_to_cart_count_eq_calls`: three adds of id 7 on the
empty cart leave exactly one item, of count 3. -/
theorem add_to_cart_count_eq_calls_witness :
    ((add_to_cart 7)^[3] []).filter (fun it => it.id == 7) =
      [⟨7, ((3 : Nat) : Int)⟩] :=
  add_to_cart_count_eq_calls 7 [] 3 (by decide) (by decide)

/-- **C5.** From the empty cart, `add(1); add(2); remove(1)` succeeds with
count 1 and the cart iterates as exactly `[{id := 2, count := 1}]`: order
preserved, and the unlink did not corrupt the remaining element. -/
theorem cart_add_add_remove_regression :
    remove_from_cart 1 (add_to_cart 2 (add_to_cart 1 [])) =
      .removed 1 [{ id := 2, count := 1 }] := by decide

/-- **C6.** From the empty cart, `add(1); add(1); remove(1)` returns the
count 2 and leaves the cart empty (first conjunct, as the claim states).
But the subsequent `remove(1)` does not produce a `NotFound` result: the
loop falls through to `LIST_REMOVE` on the `NULL` cursor and the process
segfaults (second conjunct), contradicting the second half of the claim. -/
theorem cart_double_add_remove_then_segfault :
    remove_from_cart 1 (add_to_cart 1 (add_to_cart 1 [])) = .removed 2 [] ∧
    remove_from_cart 1 [] = .segfault := by decide

/-- **C9.** The catalog lookups: `get_cost` maps 1 ↦ 10, 2 ↦ 12 and
everything else to 0; `get_name` maps 1 ↦ "apple", 2 ↦ "banana" and
everything else to "bad id".  (Both are Lean functions of `id` alone, hence
pure.) -/
theorem get_cost_get_name_spec :
    get_cost 1 = 10 ∧ get_cost 2 = 12 ∧
    get_name 1 = "apple" ∧ get_name 2 = "banana" ∧
    (∀ id : Int, id ≠ 1 → id ≠ 2 → get_cost id = 0 ∧ get_name id = "bad id") := by
  refine ⟨rfl, rfl, rfl, rfl, fun id h1 h2 => ⟨?_, ?_⟩⟩ <;>
    simp [get_cost, get_name, h1, h2]

/-- Witness for `get_cost_get_name_spec` on the unknown id 99. -/
theorem get_cost_get_name_spec_witness :
    get_cost 99 = 0 ∧ get_name 99 = "bad id" :=
  get_cost_get_name_spec.2.2.2.2 99 (by decide) (by decide)

/-- **C10.** The global head `shopping_cart` is a static *pointer* to the
head structure, zero-initialised to null and never assigned by any code in
`item.c`.  Hence for every id, even the very first `add_to_cart` or
`remove_from_cart` call dereferences the null head pointer in its opening
`LIST_FOREACH` (`shopping_cart->lh_first`) and segfaults: no cart
operation is memory-safe as written. -/
theorem shopping_cart_null_head_segfault :
    ∀ id : Int, add_to_cart_global shopping_cart id = .segfault ∧
      remove_from_cart_global shopping_cart id = .segfault :=
  fun _ => ⟨rfl, rfl⟩

/-!
## Heap-level embedding of `list.h`

Elements are heap addresses; each carries a `LIST_ENTRY`: a `le_next`
pointer (to the next element, null = `none`) and a `le_prev` pointer, which
in the C is the **address of the previous `le_next` slot** — either the
head's `lh_first` field or the `le_next` field of the predecessor node.
The macros are translated assignment by assignment.
-/

/-- A heap address (`struct item *` at the machine level). -/
abbrev addr := Nat

/-- The target of a `le_prev` pointer: the address of a next-pointer slot,
i.e. either `&head->lh_first` or `&node->le_next` for some node. -/
inductive slot where
  | headSlot : slot
  | nextSlot : addr → slot
deriving DecidableEq, Repr

/-- `LIST_ENTRY(type)` (list.h lines 9-13): `le_next` is the next element,
`le_prev` the address of the previous next-slot.  `none` in `le_prev`
stands for a null (or not yet initialised) pointer. -/
structure entry where
  le_next : Option addr
  le_prev : Option slot
deriving DecidableEq, Repr

/-- A list head (`LIST_HEAD`, list.h lines 4-7) plus the heap of link
entries.  The heap is total: addresses outside the list simply carry
whatever junk their entry holds. -/
structure lstate where
  lh_first : Option addr
  heap : addr → entry

/-- Write the `le_next` field of the node at `a`. -/
def setNext (s : lstate) (a : addr) (v : Option addr) : lstate :=
  { s with heap := fun x => if x = a then { s.heap a with le_next := v } else s.heap x }

/-- Write the `le_prev` field of the node at `a`. -/
def setPrev (s : lstate) (a : addr) (v : Option slot) : lstate :=
  { s with heap := fun x => if x = a then { s.heap a with le_prev := v } else s.heap x }

/-- Write the `lh_first` field of the head. -/
def setFirst (s : lstate) (v : Option addr) : lstate :=
  { s with lh_first := v }

/-- Read through a next-slot address. -/
def readSlot (s : lstate) : slot → Option addr
  | .headSlot => s.lh_first
  | .nextSlot a => (s.heap a).le_next

/-- Write through a next-slot address (`*(elm->le_prev) = ...`). -/
def writeSlot (s : lstate) : slot → Option addr → lstate
  | .headSlot, v => setFirst s v
  | .nextSlot a, v => setNext s a v

/-- `LIST_INSERT_HEAD(head, elm, field)` (list.h lines 25-30), assignment
by assignment:
`elm->le_next = head->lh_first`; if that value is non-null,
`head->lh_first->le_prev = &elm->le_next`; `head->lh_first = elm`;
`elm->le_prev = &head->lh_first`. -/
def LIST_INSERT_HEAD (s : lstate) (elm : addr) : lstate :=
  let s1 := setNext s elm s.lh_first
  let s2 := match s.lh_first with
    | some f => setPrev s1 f (some (slot.nextSlot elm))
    | none => s1
  let s3 := setFirst s2 (some elm)
  setPrev s3 elm (some slot.headSlot)

/-- `LIST_INSERT_AFTER(listelm, elm, field)` (list.h lines 18-23):
`elm->le_next = listelm->le_next`; if that value is non-null,
`listelm->le_next->le_prev = &elm->le_next` (the C re-reads
`listelm->le_next` here, so the re-read is modelled on the updated state);
`listelm->le_next = elm`; `elm->le_prev = &listelm->le_next`. -/
def LIST_INSERT_AFTER (s : lstate) (listelm elm : addr) : lstate :=
  let s1 := setNext s elm (s.heap listelm).le_next
  let s2 := match (s.heap listelm).le_next with
    | some _ =>
      match (s1.heap listelm).le_next with
      | some f => setPrev s1 f (some (slot.nextSlot elm))
      | none => s1
    | none => s1
  let s3 := setNext s2 listelm (some elm)
  setPrev s3 elm (some (slot.nextSlot listelm))

/-- The `while (LIST_NEXT(curelm, field)) curelm = LIST_NEXT(curelm, field)`
scan of `LIST_INSERT_TAIL` (list.h lines 37-38), with explicit fuel;
`none` means the fuel ran out before the last element was reached. -/
def scanLast (s : lstate) : Nat → addr → Option addr
  | 0, _ => none
  | fuel + 1, cur =>
    match (s.heap cur).le_next with
    | none => some cur
    | some nxt => scanLast s fuel nxt

/-- `LIST_INSERT_TAIL(head, elm, type, field)` (list.h lines 32-41):
`curelm = LIST_FIRST(head)`; if null, `LIST_INSERT_HEAD`; otherwise scan to
the last element and `LIST_INSERT_AFTER` it. -/
def LIST_INSERT_TAIL (fuel : Nat) (s : lstate) (elm : addr) : Option lstate :=
  match s.lh_first with
  | none => some (LIST_INSERT_HEAD s elm)
  | some first =>
    match scanLast s fuel first with
    | none => none
    | some last => some (LIST_INSERT_AFTER s last elm)

/-- `LIST_REMOVE(elm, field)` (list.h lines 43-48):
if `elm->le_next` is non-null, `elm->le_next->le_prev = elm->le_prev`;
if `elm->le_prev` is non-null, `*elm->le_prev = elm->le_next` (both fields
of `elm` re-read on the updated state, as in the C). -/
def LIST_REMOVE (s : lstate) (elm : addr) : lstate :=
  let s1 := match (s.heap elm).le_next with
    | some nxt => setPrev s nxt ((s.heap elm).le_prev)
    | none => s
  match (s1.heap elm).le_prev with
  | some p => writeSlot s1 p ((s1.heap elm).le_next)
  | none => s1

/-- `LIST_FOREACH(var, head, field)` (list.h lines 50-53) collecting the
visited elements, with explicit fuel; `none` means the fuel ran out
(e.g. the chain is cyclic or longer than the fuel). -/
def LIST_FOREACH : Nat → lstate → Option addr → Option (List addr)
  | _, _, none => some []
  | 0, _, some _ => none
  | fuel + 1, s, some a => (LIST_FOREACH fuel s ((s.heap a).le_next)).map (a :: ·)

section ReadLemmas

variable {s : lstate} {a x : addr} {v : Option addr} {w : Option slot}

@[simp] theorem lh_first_setNext : (setNext s a v).lh_first = s.lh_first := rfl

@[simp] theorem lh_first_setPrev : (setPrev s a w).lh_first = s.lh_first := rfl

@[simp] theorem lh_first_setFirst : (setFirst s v).lh_first = v := rfl

@[simp] theorem heap_setFirst : (setFirst s v).heap x = s.heap x := rfl

@[simp] theorem le_next_setNext_self : ((setNext s a v).heap a).le_next = v := by
  simp [setNext]

@[simp] theorem le_prev_setNext_self : ((setNext s a v).heap a).le_prev = (s.heap a).le_prev := by
  simp [setNext]

theorem heap_setNext_ne (h : x ≠ a) : (setNext s a v).heap x = s.heap x := by
  simp [setNext, h]

@[simp] theorem le_next_setPrev_self : ((setPrev s a w).heap a).le_next = (s.heap a).le_next := by
  simp [setPrev]

@[simp] theorem le_prev_setPrev_self : ((setPrev s a w).heap a).le_prev = w := by
  simp [setPrev]

theorem heap_setPrev_ne (h : x ≠ a) : (setPrev s a w).heap x = s.heap x := by
  simp [setPrev, h]

@[simp] theorem le_next_setPrev (b : addr) : ((setPrev s a w).heap b).le_next = (s.heap b).le_next := by
  by_cases h : b = a
  · subst h; simp
  · rw [heap_setPrev_ne h]

theorem writeSlot_headSlot : writeSlot s .headSlot v = setFirst s v := rfl

theorem writeSlot_nextSlot : writeSlot s (.nextSlot a) v = setNext s a v := rfl

theorem readSlot_headSlot : readSlot s .headSlot = s.lh_first := rfl

theorem readSlot_nextSlot : readSlot s (.nextSlot a) = (s.heap a).le_next := rfl

end ReadLemmas

section OpEquations

variable {s : lstate}

theorem LIST_INSERT_HEAD_eq_none {elm : addr} (hf : s.lh_first = none) :
    LIST_INSERT_HEAD s elm =
      setPrev (setFirst (setNext s elm none) (some elm)) elm (some slot.headSlot) := by
  unfold LIST_INSERT_HEAD
  rw [hf]

theorem LIST_INSERT_HEAD_eq_some {elm f : addr} (hf : s.lh_first = some f) :
    LIST_INSERT_HEAD s elm =
      setPrev (setFirst (setPrev (setNext s elm (some f)) f (some (slot.nextSlot elm)))
        (some elm)) elm (some slot.headSlot) := by
  unfold LIST_INSERT_HEAD
  rw [hf]

theorem LIST_INSERT_AFTER_eq_none {anc elm : addr}
    (hv : (s.heap anc).le_next = none) :
    LIST_INSERT_AFTER s anc elm =
      setPrev (setNext (setNext s elm none) anc (some elm)) elm
        (some (slot.nextSlot anc)) := by
  unfold LIST_INSERT_AFTER
  rw [hv]

theorem LIST_INSERT_AFTER_eq_some {anc elm b : addr}
    (hv : (s.heap anc).le_next = some b) (hne : anc ≠ elm) :
    LIST_INSERT_AFTER s anc elm =
      setPrev (setNext (setPrev (setNext s elm (some b)) b (some (slot.nextSlot elm)))
        anc (some elm)) elm (some (slot.nextSlot anc)) := by
  unfold LIST_INSERT_AFTER
  simp only [hv, heap_setNext_ne hne]

theorem LIST_REMOVE_eq_none {elm : addr} {sl : slot}
    (hnx : (s.heap elm).le_next = none) (hpv : (s.heap elm).le_prev = some sl) :
    LIST_REMOVE s elm = writeSlot s sl none := by
  unfold LIST_REMOVE
  simp only [hnx, hpv]

theorem LIST_REMOVE_eq_some {elm b : addr} {sl : slot}
    (hnx : (s.heap elm).le_next = some b) (hb : elm ≠ b)
    (hpv : (s.heap elm).le_prev = some sl) :
    LIST_REMOVE s elm = writeSlot (setPrev s b (some sl)) sl (some b) := by
  unfold LIST_REMOVE
  simp only [hnx, hpv, heap_setPrev_ne hb]

end OpEquations

/-- `chainSeg s sl xs`: starting from the next-slot `sl`, the heap links
run through exactly the elements of `xs` in order, and every element's
`le_prev` is the address of the slot that points to it.  (The final
element's `le_next` is not constrained; see `chainFrom`.) -/
def chainSeg (s : lstate) : slot → List addr → Prop
  | _, [] => True
  | sl, a :: rest =>
    readSlot s sl = some a ∧ (s.heap a).le_prev = some sl ∧
      chainSeg s (slot.nextSlot a) rest

/-- The next-slot reached after walking `xs` from `sl`. -/
def endSlot : slot → List addr → slot
  | sl, [] => sl
  | _, a :: rest => endSlot (slot.nextSlot a) rest

/-- The whole chain starting at `sl` is exactly `xs`: the segment runs
through `xs` and terminates in a null next-pointer. -/
def chainFrom (s : lstate) (sl : slot) (xs : List addr) : Prop :=
  chainSeg s sl xs ∧ readSlot s (endSlot sl xs) = none

/-- The list rooted at the head contains exactly the elements of `xs`, each
reachable exactly once (no duplicates), with every back-link `le_prev`
addressing the slot that points to the element.  This is the list
invariant of the specification. -/
def listRep (s : lstate) (xs : List addr) : Prop :=
  xs.Nodup ∧ chainFrom s slot.headSlot xs

instance chainSegDecidable (s : lstate) :
    (xs : List addr) → (sl : slot) → Decidable (chainSeg s sl xs)
  | [], _ => inferInstanceAs (Decidable True)
  | a :: rest, sl =>
    haveI : Decidable (chainSeg s (slot.nextSlot a) rest) :=
      chainSegDecidable s rest (slot.nextSlot a)
    inferInstanceAs (Decidable (readSlot s sl = some a ∧
      (s.heap a).le_prev = some sl ∧ chainSeg s (slot.nextSlot a) rest))

instance chainFromDecidable (s : lstate) (sl : slot) (xs : List addr) :
    Decidable (chainFrom s sl xs) :=
  inferInstanceAs (Decidable (_ ∧ _))

instance listRepDecidable (s : lstate) (xs : List addr) :
    Decidable (listRep s xs) :=
  inferInstanceAs (Decidable (_ ∧ _))

section ChainLemmas

variable {s s' : lstate}

theorem chainSeg_nil {sl : slot} : chainSeg s sl [] := trivial

theorem chainSeg_cons {sl : slot} {a : addr} {rest : List addr} :
    chainSeg s sl (a :: rest) ↔
      readSlot s sl = some a ∧ (s.heap a).le_prev = some sl ∧
        chainSeg s (slot.nextSlot a) rest := Iff.rfl

@[simp] theorem endSlot_nil {sl : slot} : endSlot sl [] = sl := rfl

@[simp] theorem endSlot_cons {sl : slot} {a : addr} {rest : List addr} :
    endSlot sl (a :: rest) = endSlot (slot.nextSlot a) rest := rfl

theorem endSlot_append {l₁ l₂ : List addr} :
    ∀ sl : slot, endSlot sl (l₁ ++ l₂) = endSlot (endSlot sl l₁) l₂ := by
  induction l₁ with
  | nil => intro sl; rfl
  | cons a rest ih => intro sl; simp [ih]

/-- The slot reached after a nonempty walk is the next-slot of one of the
walked elements. -/
theorem endSlot_mem {l : List addr} :
    ∀ sl : slot, l = [] ∨ ∃ p ∈ l, endSlot sl l = slot.nextSlot p := by
  induction l with
  | nil => intro sl; exact Or.inl rfl
  | cons a rest ih =>
    intro sl
    refine Or.inr ?_
    rcases ih (slot.nextSlot a) with h | ⟨p, hp, he⟩
    · subst h; exact ⟨a, List.mem_cons_self a [], rfl⟩
    · exact ⟨p, List.mem_cons_of_mem a hp, by simpa using he⟩

theorem chainSeg_append {l₁ l₂ : List addr} :
    ∀ sl : slot, chainSeg s sl (l₁ ++ l₂) ↔
      chainSeg s sl l₁ ∧ chainSeg s (endSlot sl l₁) l₂ := by
  induction l₁ with
  | nil => intro sl; simp [chainSeg_nil, chainSeg]
  | cons a rest ih =>
    intro sl
    simp only [List.cons_append, chainSeg_cons, endSlot_cons, ih, and_assoc]

/-- `chainSeg` only looks at: the entry slot, each element's `le_prev`, and
the `le_next` of every element except the last.  States agreeing there
carry the same segments. -/
theorem chainSeg_congr {xs : List addr} :
    ∀ {sl : slot}, chainSeg s sl xs →
      readSlot s' sl = readSlot s sl →
      (∀ a ∈ xs, (s'.heap a).le_prev = (s.heap a).le_prev) →
      (∀ a ∈ xs.dropLast, (s'.heap a).le_next = (s.heap a).le_next) →
      chainSeg s' sl xs := by
  induction xs with
  | nil => intro sl _ _ _ _; exact chainSeg_nil
  | cons a rest ih =>
    intro sl h hsl hprev hnext
    obtain ⟨h1, h2, h3⟩ := h
    refine ⟨hsl.trans h1, (hprev a (List.mem_cons_self a rest)).trans h2, ?_⟩
    cases rest with
    | nil => exact chainSeg_nil
    | cons b rest' =>
      refine ih h3 ?_ ?_ ?_
      · show (s'.heap a).le_next = (s.heap a).le_next
        exact hnext a (by simp [List.dropLast_cons₂])
      · intro x hx; exact hprev x (List.mem_cons_of_mem a hx)
      · intro x hx
        refine hnext x ?_
        rw [List.dropLast_cons₂]
        exact List.mem_cons_of_mem a hx

/-- Agreement on the entry slot and on every walked element's `le_next`
transports the read at the end of the walk. -/
theorem readSlot_endSlot_congr {xs : List addr} :
    ∀ {sl : slot}, readSlot s' sl = readSlot s sl →
      (∀ a ∈ xs, (s'.heap a).le_next = (s.heap a).le_next) →
      readSlot s' (endSlot sl xs) = readSlot s (endSlot sl xs) := by
  induction xs with
  | nil => intro sl hsl _; simpa using hsl
  | cons a rest ih =>
    intro sl _ hnext
    simp only [endSlot_cons]
    refine ih ?_ fun x hx => hnext x (List.mem_cons_of_mem a hx)
    exact hnext a (List.mem_cons_self a rest)

end ChainLemmas

/-- A nonempty walk ends at the next-slot of its last element. -/
theorem endSlot_ne_nil {l : List addr} (h : l ≠ []) :
    ∀ sl : slot, endSlot sl l = slot.nextSlot (l.getLast h) := by
  induction l with
  | nil => exact absurd rfl h
  | cons a rest ih =>
    intro sl
    cases rest with
    | nil => rfl
    | cons b rest' =>
      rw [endSlot_cons, ih (List.cons_ne_nil b rest'),
        List.getLast_cons (List.cons_ne_nil b rest')]

/-- In a duplicate-free list no element of `dropLast` equals the last. -/
theorem ne_getLast_of_mem_dropLast {l : List addr} (hnd : l.Nodup) (h : l ≠ [])
    {x : addr} (hx : x ∈ l.dropLast) : x ≠ l.getLast h := by
  intro he
  have hl := List.dropLast_append_getLast h
  rw [← hl] at hnd
  obtain ⟨-, -, hdisj⟩ := List.nodup_append.mp hnd
  exact hdisj hx (he ▸ List.mem_cons_self _ _)

/-- A fresh element spliced in the middle keeps the list duplicate-free. -/
theorem nodup_insert_mid {l₁ l₂ : List addr} {anc elm : addr}
    (hnd : (l₁ ++ anc :: l₂).Nodup) (hfresh : elm ∉ l₁ ++ anc :: l₂) :
    (l₁ ++ anc :: elm :: l₂).Nodup := by
  rw [List.nodup_middle] at hnd ⊢
  obtain ⟨hanc, hnd'⟩ := List.nodup_cons.mp hnd
  rw [List.nodup_cons, List.nodup_middle, List.nodup_cons]
  refine ⟨?_, ?_, hnd'⟩
  · intro hmem
    rcases List.mem_append.mp hmem with h | h
    · exact hanc (List.mem_append_left _ h)
    · rcases List.mem_cons.mp h with h | h
      · exact hfresh (h ▸ List.mem_append_right _ (List.mem_cons_self _ _))
      · exact hanc (List.mem_append_right _ h)
  · intro hmem
    rcases List.mem_append.mp hmem with h | h
    · exact hfresh (List.mem_append_left _ h)
    · exact hfresh (List.mem_append_right _ (List.mem_cons_of_mem _ h))

/-- `LIST_INSERT_HEAD` of a fresh element preserves the list invariant and
prepends the element. -/
theorem insert_head_rep {s : lstate} {xs : List addr} {elm : addr}
    (hrep : listRep s xs) (hfresh : elm ∉ xs) :
    listRep (LIST_INSERT_HEAD s elm) (elm :: xs) := by
  obtain ⟨hnd, hseg, hend⟩ := hrep
  cases hf : s.lh_first with
  | none =>
    cases xs with
    | cons a rest =>
      have h1 := hseg.1
      rw [readSlot_headSlot, hf] at h1
      exact absurd h1 (by simp)
    | nil =>
      rw [LIST_INSERT_HEAD_eq_none hf]
      exact ⟨by simp, ⟨rfl, by simp, chainSeg_nil⟩, by simp [readSlot_nextSlot]⟩
  | some f =>
    cases xs with
    | nil =>
      rw [endSlot_nil, readSlot_headSlot, hf] at hend
      exact absurd hend (by simp)
    | cons a rest =>
      obtain ⟨h1, h2, h3⟩ := hseg
      rw [readSlot_headSlot, hf] at h1
      have haf : f = a := by injection h1
      rw [haf] at hf
      have hef : elm ≠ a := fun h => hfresh (h ▸ List.mem_cons_self a rest)
      have hae : a ≠ elm := Ne.symm hef
      have hers : elm ∉ rest := fun h => hfresh (List.mem_cons_of_mem a h)
      have hars : a ∉ rest := (List.nodup_cons.mp hnd).1
      rw [LIST_INSERT_HEAD_eq_some hf]
      have hsl : readSlot
          (setPrev (setFirst (setPrev (setNext s elm (some a)) a
            (some (slot.nextSlot elm))) (some elm)) elm (some slot.headSlot))
          (slot.nextSlot a) = readSlot s (slot.nextSlot a) := by
        simp [readSlot_nextSlot, heap_setNext_ne hae]
      have hagree : ∀ x ∈ rest,
          (setPrev (setFirst (setPrev (setNext s elm (some a)) a
            (some (slot.nextSlot elm))) (some elm)) elm (some slot.headSlot)).heap x
            = s.heap x := by
        intro x hx
        have hx1 : x ≠ elm := fun h => hers (h ▸ hx)
        have hx2 : x ≠ a := fun h => hars (h ▸ hx)
        simp [heap_setPrev_ne hx1, heap_setPrev_ne hx2, heap_setNext_ne hx1]
      refine ⟨List.nodup_cons.mpr ⟨hfresh, hnd⟩, ⟨rfl, by simp, ?_, ?_, ?_⟩, ?_⟩
      · simp [readSlot_nextSlot, heap_setPrev_ne hef]
      · simp [heap_setPrev_ne hae]
      · exact chainSeg_congr h3 hsl (fun x hx => by rw [hagree x hx])
          (fun x hx => by rw [hagree x (List.dropLast_subset _ hx)])
      · have he : readSlot
            (setPrev (setFirst (setPrev (setNext s elm (some a)) a
              (some (slot.nextSlot elm))) (some elm)) elm (some slot.headSlot))
            (endSlot (slot.nextSlot a) rest)
            = readSlot s (endSlot (slot.nextSlot a) rest) :=
          readSlot_endSlot_congr hsl (fun x hx => by rw [hagree x hx])
        simp only [endSlot_cons]
        rw [he]
        simpa using hend

/-- `LIST_INSERT_AFTER` on a member anchor, with a fresh element, preserves
the list invariant and splices the element right after the anchor. -/
theorem insert_after_rep {s : lstate} {l₁ l₂ : List addr} {anc elm : addr}
    (hrep : listRep s (l₁ ++ anc :: l₂)) (hfresh : elm ∉ l₁ ++ anc :: l₂) :
    listRep (LIST_INSERT_AFTER s anc elm) (l₁ ++ anc :: elm :: l₂) := by
  obtain ⟨hnd, hseg, hend⟩ := hrep
  rw [chainSeg_append slot.headSlot] at hseg
  obtain ⟨hseg₁, ha1, ha2, ha3⟩ := hseg
  rw [endSlot_append, endSlot_cons] at hend
  have hancmem : anc ∈ l₁ ++ anc :: l₂ :=
    List.mem_append_right _ (List.mem_cons_self _ _)
  have hance : anc ≠ elm := fun h => hfresh (h ▸ hancmem)
  have helm_anc : elm ≠ anc := Ne.symm hance
  obtain ⟨hnd₁, hnd₂, hdisj⟩ := List.nodup_append.mp hnd
  have hanc_l₁ : anc ∉ l₁ := fun h => hdisj h (List.mem_cons_self _ _)
  obtain ⟨hanc_l₂, hnd₂'⟩ := List.nodup_cons.mp hnd₂
  have hx_l₁ : ∀ x ∈ l₁, x ≠ elm ∧ x ≠ anc := fun x hx =>
    ⟨fun h => hfresh (h ▸ List.mem_append_left _ hx),
     fun h => hanc_l₁ (h ▸ hx)⟩
  cases l₂ with
  | nil =>
    have hv : (s.heap anc).le_next = none := by
      simpa [readSlot_nextSlot] using hend
    rw [LIST_INSERT_AFTER_eq_none hv]
    set S := setPrev (setNext (setNext s elm none) anc (some elm)) elm
      (some (slot.nextSlot anc)) with hS
    have hfirst : S.lh_first = s.lh_first := by rw [hS]; simp
    have hagree : ∀ x : addr, x ≠ elm → x ≠ anc → S.heap x = s.heap x := by
      intro x h1 h2
      rw [hS]
      simp [heap_setPrev_ne h1, heap_setNext_ne h2, heap_setNext_ne h1]
    have helm_next : (S.heap elm).le_next = none := by
      rw [hS]; simp [heap_setNext_ne helm_anc]
    have helm_prev : (S.heap elm).le_prev = some (slot.nextSlot anc) := by
      rw [hS]; simp
    have hanc_next : (S.heap anc).le_next = some elm := by
      rw [hS]; simp [heap_setPrev_ne hance]
    have hanc_prev : (S.heap anc).le_prev = (s.heap anc).le_prev := by
      rw [hS]; simp [heap_setPrev_ne hance, heap_setNext_ne hance]
    have hl₁prev : ∀ x ∈ l₁, (S.heap x).le_prev = (s.heap x).le_prev := fun x hx => by
      rw [hagree x (hx_l₁ x hx).1 (hx_l₁ x hx).2]
    have hl₁next : ∀ x ∈ l₁, (S.heap x).le_next = (s.heap x).le_next := fun x hx => by
      rw [hagree x (hx_l₁ x hx).1 (hx_l₁ x hx).2]
    have hheadread : readSlot S slot.headSlot = readSlot s slot.headSlot := by
      rw [readSlot_headSlot, readSlot_headSlot, hfirst]
    have hendread : readSlot S (endSlot slot.headSlot l₁)
        = readSlot s (endSlot slot.headSlot l₁) :=
      readSlot_endSlot_congr hheadread hl₁next
    refine ⟨nodup_insert_mid hnd hfresh, ?_, ?_⟩
    · rw [chainSeg_append slot.headSlot]
      refine ⟨chainSeg_congr hseg₁ hheadread hl₁prev
        (fun x hx => hl₁next x (List.dropLast_subset _ hx)), ?_, ?_, ?_, ?_, chainSeg_nil⟩
      · rw [hendread]; exact ha1
      · rw [hanc_prev]; exact ha2
      · rw [readSlot_nextSlot, hanc_next]
      · rw [helm_prev]
    · rw [endSlot_append, endSlot_cons, endSlot_cons, endSlot_nil]
      rw [readSlot_nextSlot, helm_next]
  | cons b l₂' =>
    rw [chainSeg_cons] at ha3
    obtain ⟨hb1, hb2, hb3⟩ := ha3
    have hv : (s.heap anc).le_next = some b := hb1
    have hbmem : b ∈ l₁ ++ anc :: b :: l₂' :=
      List.mem_append_right _ (List.mem_cons_of_mem _ (List.mem_cons_self _ _))
    have hbe : b ≠ elm := fun h => hfresh (h ▸ hbmem)
    have hbanc : b ≠ anc := by
      intro h
      apply hanc_l₂
      rw [← h]
      exact List.mem_cons_self b l₂'
    have hanc_b : anc ≠ b := Ne.symm hbanc
    have hb_l₁ : b ∉ l₁ := fun h =>
      hdisj h (List.mem_cons_of_mem _ (List.mem_cons_self _ _))
    obtain ⟨hb_l₂', hnd₃⟩ := List.nodup_cons.mp hnd₂'
    have hx_l₂' : ∀ x ∈ l₂', x ≠ elm ∧ x ≠ anc ∧ x ≠ b := fun x hx =>
      ⟨fun h => hfresh (h ▸ List.mem_append_right _
          (List.mem_cons_of_mem _ (List.mem_cons_of_mem _ hx))),
       fun h => hanc_l₂ (h ▸ List.mem_cons_of_mem b hx),
       fun h => hb_l₂' (h ▸ hx)⟩
    rw [LIST_INSERT_AFTER_eq_some hv hance]
    set S := setPrev (setNext (setPrev (setNext s elm (some b)) b
      (some (slot.nextSlot elm))) anc (some elm)) elm (some (slot.nextSlot anc)) with hS
    have hfirst : S.lh_first = s.lh_first := by rw [hS]; simp
    have hagree : ∀ x : addr, x ≠ elm → x ≠ anc → x ≠ b → S.heap x = s.heap x := by
      intro x h1 h2 h3
      rw [hS]
      simp [heap_setPrev_ne h1, heap_setNext_ne h2, heap_setPrev_ne h3,
        heap_setNext_ne h1]
    have helm_next : (S.heap elm).le_next = some b := by
      rw [hS]; simp [heap_setNext_ne helm_anc]
    have helm_prev : (S.heap elm).le_prev = some (slot.nextSlot anc) := by
      rw [hS]; simp
    have hanc_next : (S.heap anc).le_next = some elm := by
      rw [hS]; simp [heap_setPrev_ne hance]
    have hanc_prev : (S.heap anc).le_prev = (s.heap anc).le_prev := by
      rw [hS]
      simp [heap_setPrev_ne hance, heap_setPrev_ne hanc_b, heap_setNext_ne hance]
    have hbprev : (S.heap b).le_prev = some (slot.nextSlot elm) := by
      rw [hS]; simp [heap_setPrev_ne hbe, heap_setNext_ne hbanc]
    have hbnext : (S.heap b).le_next = (s.heap b).le_next := by
      rw [hS]
      simp [heap_setPrev_ne hbe, heap_setNext_ne hbanc, heap_setNext_ne hbe]
    have hl₁prev : ∀ x ∈ l₁, (S.heap x).le_prev = (s.heap x).le_prev := fun x hx => by
      have hb' : x ≠ b := fun h => hb_l₁ (h ▸ hx)
      rw [hagree x (hx_l₁ x hx).1 (hx_l₁ x hx).2 hb']
    have hl₁next : ∀ x ∈ l₁, (S.heap x).le_next = (s.heap x).le_next := fun x hx => by
      have hb' : x ≠ b := fun h => hb_l₁ (h ▸ hx)
      rw [hagree x (hx_l₁ x hx).1 (hx_l₁ x hx).2 hb']
    have hl₂'prev : ∀ x ∈ l₂', (S.heap x).le_prev = (s.heap x).le_prev := fun x hx => by
      obtain ⟨h1, h2, h3⟩ := hx_l₂' x hx
      rw [hagree x h1 h2 h3]
    have hl₂'next : ∀ x ∈ l₂', (S.heap x).le_next = (s.heap x).le_next := fun x hx => by
      obtain ⟨h1, h2, h3⟩ := hx_l₂' x hx
      rw [hagree x h1 h2 h3]
    have hheadread : readSlot S slot.headSlot = readSlot s slot.headSlot := by
      rw [readSlot_headSlot, readSlot_headSlot, hfirst]
    have hendread : readSlot S (endSlot slot.headSlot l₁)
        = readSlot s (endSlot slot.headSlot l₁) :=
      readSlot_endSlot_congr hheadread hl₁next
    have hbread : readSlot S (slot.nextSlot b) = readSlot s (slot.nextSlot b) := by
      rw [readSlot_nextSlot, readSlot_nextSlot, hbnext]
    refine ⟨nodup_insert_mid hnd hfresh, ?_, ?_⟩
    · rw [chainSeg_append slot.headSlot]
      refine ⟨chainSeg_congr hseg₁ hheadread hl₁prev
        (fun x hx => hl₁next x (List.dropLast_subset _ hx)), ?_, ?_, ?_, ?_, ?_, ?_, ?_⟩
      · rw [hendread]; exact ha1
      · rw [hanc_prev]; exact ha2
      · rw [readSlot_nextSlot, hanc_next]
      · rw [helm_prev]
      · rw [readSlot_nextSlot, helm_next]
      · rw [hbprev]
      · exact chainSeg_congr hb3 hbread hl₂'prev
          (fun x hx => hl₂'next x (List.dropLast_subset _ hx))
    · rw [endSlot_append, endSlot_cons, endSlot_cons, endSlot_cons]
      have he : readSlot S (endSlot (slot.nextSlot b) l₂')
          = readSlot s (endSlot (slot.nextSlot b) l₂') :=
        readSlot_endSlot_congr hbread hl₂'next
      rw [he]
      rw [endSlot_cons] at hend
      exact hend

/-- `LIST_REMOVE` of a member element preserves the list invariant and
deletes exactly that element, leaving its neighbours linked to each other. -/
theorem remove_rep {s : lstate} {l₁ l₂ : List addr} {a : addr}
    (hrep : listRep s (l₁ ++ a :: l₂)) :
    listRep (LIST_REMOVE s a) (l₁ ++ l₂) := by
  obtain ⟨hnd, hseg, hend⟩ := hrep
  rw [chainSeg_append slot.headSlot] at hseg
  obtain ⟨hseg₁, ha1, ha2, ha3⟩ := hseg
  rw [endSlot_append, endSlot_cons] at hend
  obtain ⟨hnd₁, hnd₂, hdisj⟩ := List.nodup_append.mp hnd
  have ha_l₁ : a ∉ l₁ := fun h => hdisj h (List.mem_cons_self _ _)
  obtain ⟨ha_l₂, hnd₂'⟩ := List.nodup_cons.mp hnd₂
  have hnodup' : (l₁ ++ l₂).Nodup := by
    refine List.nodup_append.mpr ⟨hnd₁, hnd₂', ?_⟩
    intro x hx hx2
    exact hdisj hx (List.mem_cons_of_mem _ hx2)
  cases l₂ with
  | nil =>
    have hv : (s.heap a).le_next = none := by
      simpa [readSlot_nextSlot] using hend
    rw [LIST_REMOVE_eq_none hv ha2, List.append_nil]
    by_cases hl₁ : l₁ = []
    · subst hl₁
      rw [endSlot_nil, writeSlot_headSlot]
      exact ⟨List.nodup_nil, chainSeg_nil, by simp [readSlot_headSlot]⟩
    · set p := l₁.getLast hl₁ with hp_def
      have hsl_eq : endSlot slot.headSlot l₁ = slot.nextSlot p := endSlot_ne_nil hl₁ _
      rw [hsl_eq, writeSlot_nextSlot]
      set S := setNext s p none with hS
      have hfirst : S.lh_first = s.lh_first := by rw [hS]; simp
      have hheadread : readSlot S slot.headSlot = readSlot s slot.headSlot := by
        rw [readSlot_headSlot, readSlot_headSlot, hfirst]
      have hprev_agree : ∀ x ∈ l₁, (S.heap x).le_prev = (s.heap x).le_prev := by
        intro x hx
        by_cases hxp : x = p
        · subst hxp; rw [hS]; simp
        · rw [hS, heap_setNext_ne hxp]
      have hnext_agree : ∀ x ∈ l₁.dropLast, (S.heap x).le_next = (s.heap x).le_next := by
        intro x hx
        have hxp : x ≠ p := ne_getLast_of_mem_dropLast hnd₁ hl₁ hx
        rw [hS, heap_setNext_ne hxp]
      refine ⟨hnd₁, chainSeg_congr hseg₁ hheadread hprev_agree hnext_agree, ?_⟩
      rw [hsl_eq, readSlot_nextSlot, hS]
      simp
  | cons b l₂' =>
    rw [chainSeg_cons] at ha3
    obtain ⟨hb1, hb2, hb3⟩ := ha3
    have hv : (s.heap a).le_next = some b := hb1
    have hab : a ≠ b := by
      intro h
      apply ha_l₂
      rw [h]
      exact List.mem_cons_self b l₂'
    obtain ⟨hb_l₂', hnd₃⟩ := List.nodup_cons.mp hnd₂'
    have hb_l₁ : b ∉ l₁ := fun h =>
      hdisj h (List.mem_cons_of_mem _ (List.mem_cons_self _ _))
    rw [LIST_REMOVE_eq_some hv hab ha2]
    rw [endSlot_cons] at hend
    by_cases hl₁ : l₁ = []
    · subst hl₁
      rw [endSlot_nil, writeSlot_headSlot, List.nil_append]
      set S := setFirst (setPrev s b (some slot.headSlot)) (some b) with hS
      have hbprev : (S.heap b).le_prev = some slot.headSlot := by rw [hS]; simp
      have hbnext : (S.heap b).le_next = (s.heap b).le_next := by rw [hS]; simp
      have hagree : ∀ x : addr, x ≠ b → S.heap x = s.heap x := by
        intro x h1
        rw [hS]
        simp [heap_setPrev_ne h1]
      have hbread : readSlot S (slot.nextSlot b) = readSlot s (slot.nextSlot b) := by
        rw [readSlot_nextSlot, readSlot_nextSlot, hbnext]
      have hl₂'prev : ∀ x ∈ l₂', (S.heap x).le_prev = (s.heap x).le_prev := by
        intro x hx
        have hxb : x ≠ b := fun h => hb_l₂' (h ▸ hx)
        rw [hagree x hxb]
      have hl₂'next : ∀ x ∈ l₂', (S.heap x).le_next = (s.heap x).le_next := by
        intro x hx
        have hxb : x ≠ b := fun h => hb_l₂' (h ▸ hx)
        rw [hagree x hxb]
      refine ⟨hnd₂', ⟨?_, ?_, ?_⟩, ?_⟩
      · rw [readSlot_headSlot, hS]; simp
      · rw [hbprev]
      · exact chainSeg_congr hb3 hbread hl₂'prev
          (fun x hx => hl₂'next x (List.dropLast_subset _ hx))
      · rw [endSlot_cons]
        have he : readSlot S (endSlot (slot.nextSlot b) l₂')
            = readSlot s (endSlot (slot.nextSlot b) l₂') :=
          readSlot_endSlot_congr hbread hl₂'next
        rw [he]
        exact hend
    · set p := l₁.getLast hl₁ with hp_def
      have hsl_eq : endSlot slot.headSlot l₁ = slot.nextSlot p := endSlot_ne_nil hl₁ _
      rw [hsl_eq, writeSlot_nextSlot]
      set S := setNext (setPrev s b (some (slot.nextSlot p))) p (some b) with hS
      have hp_mem : p ∈ l₁ := List.getLast_mem hl₁
      have hpb : p ≠ b := fun h => hb_l₁ (h ▸ hp_mem)
      have hbp : b ≠ p := Ne.symm hpb
      have hfirst : S.lh_first = s.lh_first := by rw [hS]; simp
      have hp_next : (S.heap p).le_next = some b := by rw [hS]; simp
      have hp_prev : (S.heap p).le_prev = (s.heap p).le_prev := by
        rw [hS]; simp [heap_setPrev_ne hpb]
      have hb_next : (S.heap b).le_next = (s.heap b).le_next := by
        rw [hS]; simp [heap_setNext_ne hbp]
      have hb_prev : (S.heap b).le_prev = some (slot.nextSlot p) := by
        rw [hS]; simp [heap_setNext_ne hbp]
      have hagree : ∀ x : addr, x ≠ p → x ≠ b → S.heap x = s.heap x := by
        intro x h1 h2
        rw [hS]
        simp [heap_setNext_ne h1, heap_setPrev_ne h2]
      have hheadread : readSlot S slot.headSlot = readSlot s slot.headSlot := by
        rw [readSlot_headSlot, readSlot_headSlot, hfirst]
      have hbread : readSlot S (slot.nextSlot b) = readSlot s (slot.nextSlot b) := by
        rw [readSlot_nextSlot, readSlot_nextSlot, hb_next]
      have hl₁prev : ∀ x ∈ l₁, (S.heap x).le_prev = (s.heap x).le_prev := by
        intro x hx
        by_cases hxp : x = p
        · subst hxp; exact hp_prev
        · have hxb : x ≠ b := fun h => hb_l₁ (h ▸ hx)
          rw [hagree x hxp hxb]
      have hl₁next : ∀ x ∈ l₁.dropLast, (S.heap x).le_next = (s.heap x).le_next := by
        intro x hx
        have hxp : x ≠ p := ne_getLast_of_mem_dropLast hnd₁ hl₁ hx
        have hxb : x ≠ b := fun h => hb_l₁ (h ▸ List.dropLast_subset _ hx)
        rw [hagree x hxp hxb]
      have hl₂'prev : ∀ x ∈ l₂', (S.heap x).le_prev = (s.heap x).le_prev := by
        intro x hx
        have hxb : x ≠ b := fun h => hb_l₂' (h ▸ hx)
        have hxp : x ≠ p := by
          intro h
          exact hdisj (h ▸ hp_mem)
            (List.mem_cons_of_mem _ (List.mem_cons_of_mem _ (h ▸ hx)))
        rw [hagree x hxp hxb]
      have hl₂'next : ∀ x ∈ l₂', (S.heap x).le_next = (s.heap x).le_next := by
        intro x hx
        have hxb : x ≠ b := fun h => hb_l₂' (h ▸ hx)
        have hxp : x ≠ p := by
          intro h
          exact hdisj (h ▸ hp_mem)
            (List.mem_cons_of_mem _ (List.mem_cons_of_mem _ (h ▸ hx)))
        rw [hagree x hxp hxb]
      refine ⟨hnodup', ?_, ?_⟩
      · rw [chainSeg_append slot.headSlot, hsl_eq]
        refine ⟨chainSeg_congr hseg₁ hheadread hl₁prev hl₁next, ?_, ?_, ?_⟩
        · rw [readSlot_nextSlot, hp_next]
        · rw [hb_prev]
        · exact chainSeg_congr hb3 hbread hl₂'prev
            (fun x hx => hl₂'next x (List.dropLast_subset _ hx))
      · rw [endSlot_append, endSlot_cons]
        have he : readSlot S (endSlot (slot.nextSlot b) l₂')
            = readSlot s (endSlot (slot.nextSlot b) l₂') :=
          readSlot_endSlot_congr hbread hl₂'next
        rw [he]
        exact hend

/-- `LIST_FOREACH` over a null cursor visits nothing, whatever the fuel. -/
theorem LIST_FOREACH_none {s : lstate} (fuel : Nat) :
    LIST_FOREACH fuel s none = some [] := by
  cases fuel <;> rfl

/-- Over a well-formed chain, `LIST_FOREACH` with enough fuel enumerates
exactly the chain in order. -/
theorem foreach_chain {s : lstate} :
    ∀ (xs : List addr) (sl : slot) (fuel : Nat),
      chainFrom s sl xs → xs.length ≤ fuel →
      LIST_FOREACH fuel s (readSlot s sl) = some xs := by
  intro xs
  induction xs with
  | nil =>
    intro sl fuel h _
    have hr : readSlot s sl = none := by simpa using h.2
    rw [hr]
    exact LIST_FOREACH_none fuel
  | cons a rest ih =>
    intro sl fuel h hlen
    obtain ⟨⟨h1, h2, h3⟩, hend⟩ := h
    cases fuel with
    | zero => simp at hlen
    | succ k =>
      rw [h1]
      rw [show LIST_FOREACH (k + 1) s (some a)
        = (LIST_FOREACH k s ((s.heap a).le_next)).map (a :: ·) from rfl]
      rw [show (s.heap a).le_next = readSlot s (slot.nextSlot a) from rfl]
      rw [ih (slot.nextSlot a) k ⟨h3, by simpa using hend⟩ (by simpa using hlen)]
      rfl

/-- Over a well-formed nonempty chain, the `LIST_INSERT_TAIL` scan with
enough fuel finds the last element. -/
theorem scanLast_spec {s : lstate} :
    ∀ (rest : List addr) (f : addr) (sl : slot) (fuel : Nat),
      chainFrom s sl (f :: rest) → (f :: rest).length ≤ fuel →
      scanLast s fuel f = some ((f :: rest).getLast (List.cons_ne_nil f rest)) := by
  intro rest
  induction rest with
  | nil =>
    intro f sl fuel h hlen
    obtain ⟨⟨h1, h2, -⟩, hend⟩ := h
    have hnx : (s.heap f).le_next = none := by simpa [readSlot_nextSlot] using hend
    cases fuel with
    | zero => simp at hlen
    | succ k =>
      rw [show scanLast s (k + 1) f = match (s.heap f).le_next with
        | none => some f
        | some nxt => scanLast s k nxt from rfl]
      rw [hnx]
      rfl
  | cons b rest' ih =>
    intro f sl fuel h hlen
    obtain ⟨⟨h1, h2, h3⟩, hend⟩ := h
    have hb1 : (s.heap f).le_next = some b := h3.1
    cases fuel with
    | zero => simp at hlen
    | succ k =>
      rw [show scanLast s (k + 1) f = match (s.heap f).le_next with
        | none => some f
        | some nxt => scanLast s k nxt from rfl]
      rw [hb1]
      rw [List.getLast_cons (List.cons_ne_nil b rest')]
      exact ih b (slot.nextSlot f) k ⟨h3, by simpa using hend⟩ (by simpa using hlen)

/-- `LIST_INSERT_TAIL` of a fresh element (with fuel at least the current
length) succeeds and preserves the list invariant, appending the element. -/
theorem insert_tail_rep {s : lstate} {xs : List addr} {elm : addr} {fuel : Nat}
    (hrep : listRep s xs) (hfresh : elm ∉ xs) (hfuel : xs.length ≤ fuel) :
    ∃ s', LIST_INSERT_TAIL fuel s elm = some s' ∧ listRep s' (xs ++ [elm]) := by
  obtain ⟨hnd, hseg, hend⟩ := hrep
  cases xs with
  | nil =>
    have hf : s.lh_first = none := by simpa [readSlot_headSlot] using hend
    refine ⟨LIST_INSERT_HEAD s elm, ?_, ?_⟩
    · unfold LIST_INSERT_TAIL
      rw [hf]
    · have hr0 : listRep s [] := ⟨hnd, hseg, hend⟩
      have := insert_head_rep hr0 hfresh
      simpa using this
  | cons f rest =>
    obtain ⟨h1, h2, h3⟩ := hseg
    have hf : s.lh_first = some f := by rw [← readSlot_headSlot]; exact h1
    have hscan := scanLast_spec rest f slot.headSlot fuel ⟨⟨h1, h2, h3⟩, hend⟩ hfuel
    refine ⟨LIST_INSERT_AFTER s ((f :: rest).getLast (List.cons_ne_nil f rest)) elm,
      ?_, ?_⟩
    · unfold LIST_INSERT_TAIL
      rw [hf]
      simp only [hscan]
    · have hsplit : f :: rest = (f :: rest).dropLast
          ++ (f :: rest).getLast (List.cons_ne_nil f rest) :: [] :=
        (List.dropLast_append_getLast (List.cons_ne_nil f rest)).symm
      have hrep0 : listRep s (f :: rest) := ⟨hnd, ⟨h1, h2, h3⟩, hend⟩
      rw [hsplit] at hrep0 hfresh
      have hafter := insert_after_rep hrep0 hfresh
      have heq : (f :: rest).dropLast
          ++ (f :: rest).getLast (List.cons_ne_nil f rest) :: elm :: []
          = (f :: rest) ++ [elm] := by
        conv_rhs => rw [hsplit]
        simp
      rw [heq] at hafter
      exact hafter

/-- The state of a `LIST_HEAD` that was initialised empty (all heap entries
hold junk `none` fields, as after `malloc` without initialisation). -/
def emptyLState : lstate := ⟨none, fun _ => ⟨none, none⟩⟩

/-- Repeated `LIST_INSERT_TAIL` of the elements of `as`, growing the fuel
by one per insertion so that each scan has fuel at least the current list
length. -/
def insertAllTail : Nat → List addr → lstate → Option lstate
  | _, [], s => some s
  | fuel, a :: rest, s =>
    match LIST_INSERT_TAIL fuel s a with
    | none => none
    | some s' => insertAllTail (fuel + 1) rest s'

/-- Tail-inserting fresh, distinct elements extends the represented list on
the right, in order. -/
theorem insertAllTail_spec :
    ∀ (as : List addr) (s : lstate) (xs : List addr) (fuel : Nat),
      listRep s xs → (xs ++ as).Nodup → xs.length ≤ fuel →
      ∃ s', insertAllTail fuel as s = some s' ∧ listRep s' (xs ++ as) := by
  intro as
  induction as with
  | nil =>
    intro s xs fuel h _ _
    exact ⟨s, rfl, by simpa using h⟩
  | cons a rest ih =>
    intro s xs fuel hrep hnd hfuel
    have hfa : a ∉ xs := by
      obtain ⟨-, -, hdisj⟩ := List.nodup_append.mp hnd
      exact fun h => hdisj h (List.mem_cons_self _ _)
    obtain ⟨s', hs', hrep'⟩ := insert_tail_rep hrep hfa hfuel
    have hnd' : ((xs ++ [a]) ++ rest).Nodup := by
      rw [List.append_assoc]
      simpa using hnd
    have hlen' : (xs ++ [a]).length ≤ fuel + 1 := by
      simp only [List.length_append, List.length_singleton]
      omega
    obtain ⟨s'', hs'', hrep''⟩ := ih s' (xs ++ [a]) (fuel + 1) hrep' hnd' hlen'
    refine ⟨s'', ?_, ?_⟩
    · rw [show insertAllTail fuel (a :: rest) s
        = match LIST_INSERT_TAIL fuel s a with
          | none => none
          | some s' => insertAllTail (fuel + 1) rest s' from rfl]
      rw [hs']
      exact hs''
    · rw [List.append_assoc] at hrep''
      simpa using hrep''

/-- **C7.** For every sequence of distinct elements, inserting them one by
one via `LIST_INSERT_TAIL` into an initially empty list (each scan given
enough fuel, which the real non-terminating-on-cycles `while` loop does not
need) and then iterating with `LIST_FOREACH` yields exactly those elements
in insertion order. -/
theorem insert_tail_foreach_order (as : List addr) (hnd : as.Nodup) :
    ∃ s', insertAllTail 0 as emptyLState = some s' ∧
      LIST_FOREACH as.length s' s'.lh_first = some as := by
  have hrep0 : listRep emptyLState [] := ⟨List.nodup_nil, chainSeg_nil, rfl⟩
  obtain ⟨s', h1, h2⟩ := insertAllTail_spec as emptyLState [] 0 hrep0
    (by simpa using hnd) (by simp)
  rw [List.nil_append] at h2
  refine ⟨s', h1, ?_⟩
  have := foreach_chain as slot.headSlot as.length h2.2 (le_refl _)
  rw [readSlot_headSlot] at this
  exact this

/-- Witness for `insert_tail_foreach_order` at the concrete sequence
`[1, 2, 3]`. -/
theorem insert_tail_foreach_order_witness :
    ∃ s', insertAllTail 0 [1, 2, 3] emptyLState = some s' ∧
      LIST_FOREACH 3 s' s'.lh_first = some [1, 2, 3] :=
  insert_tail_foreach_order [1, 2, 3] (by decide)

/-- **C8.** Each of the four list operations preserves the list invariant
`listRep`: the elements of the list are exactly a duplicate-free sequence
`xs` reachable from the head in order (each element exactly once), and
every element's back-link `le_prev` addresses the slot that points to it.
`LIST_INSERT_HEAD` of a fresh element prepends it; `LIST_INSERT_AFTER` on a
member anchor splices the fresh element after the anchor; `LIST_INSERT_TAIL`
(with fuel covering the scan) appends it; `LIST_REMOVE` of a member deletes
exactly that member. -/
theorem list_ops_preserve_rep :
    (∀ (s : lstate) (xs : List addr) (elm : addr), listRep s xs → elm ∉ xs →
      listRep (LIST_INSERT_HEAD s elm) (elm :: xs)) ∧
    (∀ (s : lstate) (l₁ l₂ : List addr) (anc elm : addr),
      listRep s (l₁ ++ anc :: l₂) → elm ∉ l₁ ++ anc :: l₂ →
      listRep (LIST_INSERT_AFTER s anc elm) (l₁ ++ anc :: elm :: l₂)) ∧
    (∀ (s : lstate) (xs : List addr) (elm : addr) (fuel : Nat),
      listRep s xs → elm ∉ xs → xs.length ≤ fuel →
      ∃ s', LIST_INSERT_TAIL fuel s elm = some s' ∧ listRep s' (xs ++ [elm])) ∧
    (∀ (s : lstate) (l₁ l₂ : List addr) (a : addr),
      listRep s (l₁ ++ a :: l₂) → listRep (LIST_REMOVE s a) (l₁ ++ l₂)) :=
  ⟨fun _ _ _ h hf => insert_head_rep h hf,
   fun _ _ _ _ _ h hf => insert_after_rep h hf,
   fun _ _ _ _ h hf hl => insert_tail_rep h hf hl,
   fun _ _ _ _ h => remove_rep h⟩

/-- A concrete two-element state: head → node 1 → node 2, with correct
back-links. -/
def twoNodeState : lstate :=
  ⟨some 1, fun x =>
    if x = 1 then ⟨some 2, some slot.headSlot⟩
    else if x = 2 then ⟨none, some (slot.nextSlot 1)⟩
    else ⟨none, none⟩⟩

/-- Witness for `list_ops_preserve_rep`: the head-insert branch on the
empty state and the remove branch on the two-element state. -/
theorem list_ops_preserve_rep_witness :
    listRep (LIST_INSERT_HEAD emptyLState 5) [5] ∧
    listRep (LIST_REMOVE twoNodeState 2) [1] :=
  ⟨list_ops_preserve_rep.1 emptyLState [] 5 (by decide) (by decide),
   list_ops_preserve_rep.2.2.2 twoNodeState [1] [] 2 (by decide)⟩
